import Mathlib

/-!
Verification of the Market-Basket-Analysis repository
(`src/market_basket.py`, `src/utils.py`).

The repository wraps the `mlxtend` mining library: `mine_frequent_itemsets`
dispatches to `apriori` / `fpgrowth` and then sorts the resulting table;
`derive_rules` calls `association_rules` and then sorts the rules;
`load_and_prepare` pivots line-item records into a boolean basket matrix.

Items are modelled as naturals (a column index in the incidence matrix,
equivalently an item label in its lexicographic position); a transaction is
the finite set of items it contains; supports and metric values are exact
rationals.  Rational arithmetic is written with the kernel-computable
primitives `mkRat` / `Rat.divInt` through the wrappers `ratMul`, `ratDiv`,
`ratSub` below; the lemmas `ratMul_eq`, `ratDiv_eq`, `ratSub_eq` prove the
wrappers equal to the field operations `*`, `/`, `-` of `ℚ`, so every
definition means exactly the textbook formula.

The bodies of the library functions (`apriori`, `fpgrowth`,
`association_rules`) are not part of the repository source, so they are
modelled from the specification (sections 4.1-4.4 and 7); each such
definition carries a doc comment saying what was modelled.  The wrapper
logic that *is* in the repository (argument dispatch, the two `sort_values`
calls, the pivot) is translated directly from the source.  A pandas
multi-key `sort_values` is a stable lexicographic sort (`np.lexsort`), so it
is modelled as a stable insertion sort applied per key from the last key to
the first; the comparison that pandas applies to the `itemsets` column is
the Python `frozenset` order, whose strict part is strict set inclusion.
-/

/-- Product of two rationals, computed with the kernel-computable `mkRat`;
`ratMul_eq` proves it equal to `a * b`. -/
def ratMul (a b : ℚ) : ℚ :=
  mkRat (a.num * b.num) (a.den * b.den)

/-- Quotient of two rationals (0 when `b = 0`), computed with the
kernel-computable `Rat.divInt`; `ratDiv_eq` proves it equal to `a / b`. -/
def ratDiv (a b : ℚ) : ℚ :=
  Rat.divInt (a.num * (b.den : ℤ)) ((a.den : ℤ) * b.num)

/-- Difference of two rationals, computed with the kernel-computable
`mkRat`; `ratSub_eq` proves it equal to `a - b`. -/
def ratSub (a b : ℚ) : ℚ :=
  mkRat (a.num * (b.den : ℤ) - b.num * (a.den : ℤ)) (a.den * b.den)

/-- The fraction `c / n` of a count over a transaction total. -/
def suppVal (n c : ℕ) : ℚ :=
  mkRat (c : ℤ) n

/-- Number of transactions of `db` containing the itemset `S`
(the population count of the AND of the member indicator columns). -/
def cnt (db : List (Finset ℕ)) (S : Finset ℕ) : ℕ :=
  db.countP (fun t => decide (S ⊆ t))

/-- Support of an itemset: fraction of transactions containing it. -/
def supportQ (db : List (Finset ℕ)) (S : Finset ℕ) : ℚ :=
  suppVal db.length (cnt db S)

/-- Canonical sorted-sequence representation of an itemset (spec section 3:
itemsets are stored and compared in canonical sorted order). -/
def canonSeq (S : Finset ℕ) : List ℕ :=
  Quot.liftOn S.val (fun l => List.insertionSort (· ≤ ·) l) (fun l₁ l₂ h =>
    List.eq_of_perm_of_sorted
      (((l₁.perm_insertionSort (· ≤ ·)).trans h).trans
        (l₂.perm_insertionSort (· ≤ ·)).symm)
      (l₁.sorted_insertionSort (· ≤ ·)) (l₂.sorted_insertionSort (· ≤ ·)))

/-- Modelled from the spec (section 4.2, join step): unions of pairs of
frequent `k`-itemsets that share exactly `k-1` items, de-duplicated.  Sharing
exactly `k-1` items is equivalent to the union having size `k+1`. -/
def aprioriJoin (L : List (Finset ℕ)) (k : ℕ) : List (Finset ℕ) :=
  ((L.flatMap (fun a => L.map (fun b => a ∪ b))).filter
    (fun c => decide (c.card = k + 1))).dedup

/-- Modelled from the spec (section 4.2, prune step): a candidate survives
only if every one of its `k`-sized subsets is a known frequent `k`-itemset. -/
def aprioriPrune (L C : List (Finset ℕ)) (k : ℕ) : List (Finset ℕ) :=
  C.filter (fun c => decide (∀ s ∈ Finset.powersetCard k c, s ∈ L))

/-- One level of the Apriori miner: join, prune, then keep candidates whose
support meets the threshold. -/
def aprioriStep (db : List (Finset ℕ)) (ms : ℚ) (L : List (Finset ℕ)) (k : ℕ) :
    List (Finset ℕ) :=
  (aprioriPrune L (aprioriJoin L k) k).filter (fun c => decide (ms ≤ supportQ db c))

/-- Modelled from the spec (section 4.3): level-wise loop.  Stops when the
frequent set at the current level is empty or when `k` has reached the total
item count (the fuel starts at the item count). -/
def aprioriFrom (db : List (Finset ℕ)) (ms : ℚ) :
    ℕ → List (Finset ℕ) → ℕ → List (Finset ℕ)
  | 0, _, _ => []
  | fuel + 1, L, k =>
    if L = [] then [] else L ++ aprioriFrom db ms fuel (aprioriStep db ms L k) (k + 1)

/-- Modelled from the spec (section 4.3): seed candidates are all distinct
single items; levels proceed until exhaustion. -/
def aprioriSets (db : List (Finset ℕ)) (items : List ℕ) (ms : ℚ) : List (Finset ℕ) :=
  aprioriFrom db ms items.length
    ((items.filter (fun i => decide (ms ≤ supportQ db {i}))).map (fun i => ({i} : Finset ℕ)))
    1

/-- Tag each mined itemset with its exact support. -/
def attachSupp (db : List (Finset ℕ)) (l : List (Finset ℕ)) : List (Finset ℕ × ℚ) :=
  l.map (fun S => (S, supportQ db S))

/-- Modelled from the spec (section 4.2, FP-Growth-style strategy):
recursive conditional mining.  For the head item `i`, if `{i}` meets the
threshold, emit `{i}` and mine the conditional database of transactions
containing `i` over the remaining items, prefixing `i` onto every pattern;
in every case also mine the remaining items over the unrestricted database.
The denominator `n` is the original transaction count throughout. -/
def condMine (n : ℕ) (ms : ℚ) : List ℕ → List (Finset ℕ) → List (Finset ℕ × ℚ)
  | [], _ => []
  | i :: rest, db =>
    (if ms ≤ suppVal n (cnt db {i}) then
      (({i} : Finset ℕ), suppVal n (cnt db {i})) ::
        (condMine n ms rest (db.filter (fun t => decide (i ∈ t)))).map
          (fun p => (insert i p.1, p.2))
    else []) ++ condMine n ms rest db

/-- Modelled from the spec (sections 4.3 and 7): the library miner validates
its arguments eagerly (min_support in `(0,1]`, non-degenerate incidence
model) before any mining work, then runs the level-wise strategy. -/
def mlx_apriori (db : List (Finset ℕ)) (items : List ℕ) (ms : ℚ) :
    Except String (List (Finset ℕ × ℚ)) :=
  if ¬ (0 < ms ∧ ms ≤ 1) then
    .error "min_support must be a positive number within the interval (0, 1]"
  else if db.length = 0 then .error "the incidence model has zero transactions"
  else if items.length = 0 then .error "the incidence model has zero items"
  else .ok (attachSupp db (aprioriSets db items ms))

/-- Modelled from the spec (sections 4.2, 4.3 and 7): same eager validation,
then the FP-Growth-style recursive strategy. -/
def mlx_fpgrowth (db : List (Finset ℕ)) (items : List ℕ) (ms : ℚ) :
    Except String (List (Finset ℕ × ℚ)) :=
  if ¬ (0 < ms ∧ ms ≤ 1) then
    .error "min_support must be a positive number within the interval (0, 1]"
  else if db.length = 0 then .error "the incidence model has zero transactions"
  else if items.length = 0 then .error "the incidence model has zero items"
  else .ok (condMine db.length ms items db)

/-- Secondary sort key of `fi.sort_values(["support", "itemsets"], ...)`:
the `itemsets` column holds Python frozensets, compared by set inclusion
(`a < b` iff `a` is a strict subset of `b`); ascending order places `p`
before `q` unless `q.1` is a strict subset of `p.1`. -/
def fsSecLe (p q : Finset ℕ × ℚ) : Prop := ¬ (q.1 ⊂ p.1)

instance : DecidableRel fsSecLe := fun p q => by unfold fsSecLe; infer_instance

/-- Primary sort key of `fi.sort_values(["support", "itemsets"], ...)`:
support, descending. -/
def fiSuppGe (p q : Finset ℕ × ℚ) : Prop := q.2 ≤ p.2

instance : DecidableRel fiSuppGe := fun p q => by unfold fiSuppGe; infer_instance

/-- The `fi.sort_values(["support", "itemsets"], ascending=[False, True])`
line: a stable lexicographic sort, realised as a stable sort by the
secondary key followed by a stable sort by the primary key. -/
def sortFI (l : List (Finset ℕ × ℚ)) : List (Finset ℕ × ℚ) :=
  List.insertionSort fiSuppGe (List.insertionSort fsSecLe l)

/-- `mine_frequent_itemsets` from `src/market_basket.py`: dispatch on the
algorithm name, raise for anything else, then sort the frequent-itemset
table. -/
def mine_frequent_itemsets (db : List (Finset ℕ)) (items : List ℕ) (algo : String)
    (ms : ℚ) : Except String (List (Finset ℕ × ℚ)) :=
  if algo = "apriori" then (mlx_apriori db items ms).map sortFI
  else if algo = "fpgrowth" then (mlx_fpgrowth db items ms).map sortFI
  else .error "algo must be either apriori or fpgrowth"

/-- Brute-force reference (stated from the claim): every non-empty subset of
the item universe whose support meets the threshold, paired with its exact
support. -/
def bruteForce (db : List (Finset ℕ)) (items : List ℕ) (ms : ℚ) :
    Finset (Finset ℕ × ℚ) :=
  ((items.toFinset.powerset.erase ∅).filter (fun S => ms ≤ supportQ db S)).image
    (fun S => (S, supportQ db S))

/-- Conviction column value: either a finite rational or the explicit
positive-infinity sentinel used when confidence is exactly 1. -/
inductive Qinf where
  | fin (q : ℚ)
  | inf
deriving DecidableEq, Repr

/-- Comparison of a metric value against a threshold; the infinity sentinel
meets every threshold. -/
def Qinf.meets (v : Qinf) (t : ℚ) : Bool :=
  match v with
  | .inf => true
  | .fin q => decide (t ≤ q)

/-- One association rule record as produced by `derive_rules`. -/
structure Rule where
  antecedents : Finset ℕ
  consequents : Finset ℕ
  support : ℚ
  confidence : ℚ
  lift : ℚ
  leverage : ℚ
  conviction : Qinf
deriving DecidableEq

/-- Support of an itemset looked up in the frequent-itemset table (0 when
absent). -/
def suppOf (fi : List (Finset ℕ × ℚ)) (S : Finset ℕ) : ℚ :=
  ((fi.find? (fun p => decide (p.1 = S))).map (fun p => p.2)).getD 0

/-- Lift as computed by the rule deriver:
`confidence / support(consequent)` with `confidence = sAC / sA`. -/
def liftVal (sAC sA sC : ℚ) : ℚ :=
  ratDiv (ratDiv sAC sA) sC

/-- The metric column selected by the `metric` configuration option. -/
def metricValue (r : Rule) (metric : String) : Qinf :=
  if metric = "support" then .fin r.support
  else if metric = "confidence" then .fin r.confidence
  else if metric = "lift" then .fin r.lift
  else if metric = "leverage" then .fin r.leverage
  else r.conviction

/-- The rule record built for antecedent `A` inside the frequent itemset
`p.1` (whose tabulated support is `p.2`): consequent is the complement,
confidence is `support(itemset) / support(antecedent)`, lift divides by the
consequent support, leverage subtracts the independence product, and
conviction is `(1 - support(consequent)) / (1 - confidence)` with the
explicit infinity sentinel when confidence is exactly 1. -/
def ruleOf (fi : List (Finset ℕ × ℚ)) (p : Finset ℕ × ℚ) (A : Finset ℕ) : Rule :=
  let C := p.1 \ A
  let sA := suppOf fi A
  let sC := suppOf fi C
  let conf := ratDiv p.2 sA
  { antecedents := A
    consequents := C
    support := p.2
    confidence := conf
    lift := liftVal p.2 sA sC
    leverage := ratSub p.2 (ratMul sA sC)
    conviction := if conf = 1 then .inf else .fin (ratDiv (ratSub 1 sC) (ratSub 1 conf)) }

/-- Modelled from the spec (section 4.4): for each frequent itemset of size
at least 2, enumerate every non-empty proper bipartition, compute the metric
columns, discard the rule if the antecedent support is 0, and keep it only
if the selected metric meets the threshold. -/
def mkRules (fi : List (Finset ℕ × ℚ)) (metric : String) (thr : ℚ) : List Rule :=
  fi.flatMap (fun p =>
    if p.1.card < 2 then []
    else
      (((canonSeq p.1).sublists.map (fun l => l.toFinset)).filter
          (fun A => decide (A ≠ ∅ ∧ A ≠ p.1))).filterMap
        (fun A =>
          if suppOf fi A = 0 then none
          else
            if (metricValue (ruleOf fi p A) metric).meets thr then some (ruleOf fi p A)
            else none))

/-- Sort order of `rules.sort_values(["lift", "confidence", "support"],
ascending=False)`: descending lexicographic on the three metric columns. -/
def ruleGe (r1 r2 : Rule) : Prop :=
  r2.lift < r1.lift ∨
    (r1.lift = r2.lift ∧
      (r2.confidence < r1.confidence ∨
        (r1.confidence = r2.confidence ∧ r2.support ≤ r1.support)))

instance : DecidableRel ruleGe := fun r1 r2 => by unfold ruleGe; infer_instance

/-- `derive_rules` from `src/market_basket.py`: run the rule deriver on the
frequent-itemset table (unknown metric selectors are rejected), then sort by
descending lift, confidence, support (a stable multi-key sort). -/
def derive_rules (fi : List (Finset ℕ × ℚ)) (metric : String) (thr : ℚ) :
    Except String (List Rule) :=
  if metric = "support" ∨ metric = "confidence" ∨ metric = "lift" ∨
      metric = "leverage" ∨ metric = "conviction" then
    .ok (List.insertionSort ruleGe (mkRules fi metric thr))
  else .error "metric must be one of support, confidence, lift, leverage, conviction"

/-- One line-item record of the input table. -/
structure Record where
  order_id : ℕ
  item : ℕ
  quantity : Int
deriving DecidableEq, Repr

/-- The basket matrix produced by `load_and_prepare`: sorted distinct order
ids as rows, sorted distinct items as columns, boolean entries. -/
structure Basket where
  orders : List ℕ
  items : List ℕ
  entry : ℕ → ℕ → Bool

/-- The `qty` indicator column: `(quantity > 0).astype(int)`. -/
def qtyInd (r : Record) : ℕ :=
  if 0 < r.quantity then 1 else 0

/-- `aggfunc="max"` with `fill_value=0`: maximum of the aggregated values,
0 when no record matches. -/
def aggMax (l : List ℕ) : ℕ :=
  l.foldr max 0

/-- `load_and_prepare` from `src/market_basket.py`: pivot the line-item
records into an order-by-item matrix, aggregating the `qty` indicator by
max with fill value 0, cast to boolean.  The pivot sorts the distinct row
and column labels ascending. -/
def load_and_prepare (records : List Record) : Basket :=
  { orders := List.insertionSort (· ≤ ·) ((records.map (fun r => r.order_id)).dedup)
    items := List.insertionSort (· ≤ ·) ((records.map (fun r => r.item)).dedup)
    entry := fun o i =>
      decide
        (aggMax ((records.filter
          (fun r => decide (r.order_id = o ∧ r.item = i))).map qtyInd) ≠ 0) }

/-- The transactions encoded by a basket matrix: one row per order, each the
set of items whose entry is true. -/
def basketRows (b : Basket) : List (Finset ℕ) :=
  b.orders.map (fun o => (b.items.filter (fun i => b.entry o i)).toFinset)

/-- Transaction count of a basket: the number of rows, the denominator of
every support value. -/
def nTransactions (b : Basket) : ℕ :=
  (basketRows b).length

/-- The whole analysis of `main`: mine frequent itemsets, then derive rules,
with one configuration. -/
def run_analysis (db : List (Finset ℕ)) (items : List ℕ) (algo : String) (ms : ℚ)
    (metric : String) (thr : ℚ) : Except String (List Rule) :=
  (mine_frequent_itemsets db items algo ms).bind (fun fi => derive_rules fi metric thr)

/-- Strict lexicographic comparison of canonical sequences (the order of the
comma-joined canonical string representations). -/
def seqLt : List ℕ → List ℕ → Bool
  | [], [] => false
  | [], _ :: _ => true
  | _ :: _, [] => false
  | a :: as, b :: bs => if a < b then true else if b < a then false else seqLt as bs

/-- Boolean check that a relation holds for every ordered pair of positions
of a list. -/
def allPairs (f : α → α → Bool) : List α → Bool
  | [] => true
  | x :: xs => xs.all (f x) && allPairs f xs

/-- The ordering property asserted by the spec for the frequent-itemset
table: descending support, and itemsets of equal support in ascending order
of their canonical sorted-sequence representation. -/
def fiClaimOrdered (l : List (Finset ℕ × ℚ)) : Prop :=
  allPairs
    (fun p q =>
      decide (q.2 ≤ p.2) &&
        (if p.2 = q.2 then !(seqLt (canonSeq q.1) (canonSeq p.1)) else true))
    l = true

instance (l : List (Finset ℕ × ℚ)) : Decidable (fiClaimOrdered l) := by
  unfold fiClaimOrdered; infer_instance

/-- The ordering property asserted by the spec for the rule table:
descending lift, then confidence, then support, and rules tied on all three
metrics in ascending order of the canonical string representations of their
antecedent and consequent. -/
def rulesClaimOrdered (l : List Rule) : Prop :=
  allPairs
    (fun r1 r2 =>
      decide (ruleGe r1 r2) &&
        (if r1.lift = r2.lift ∧ r1.confidence = r2.confidence ∧ r1.support = r2.support
          then
            !(seqLt (canonSeq r2.antecedents) (canonSeq r1.antecedents)) &&
              (if canonSeq r1.antecedents = canonSeq r2.antecedents then
                !(seqLt (canonSeq r2.consequents) (canonSeq r1.consequents))
              else true)
          else true))
    l = true

instance (l : List Rule) : Decidable (rulesClaimOrdered l) := by
  unfold rulesClaimOrdered; infer_instance

instance [DecidableEq ε] [DecidableEq α] : DecidableEq (Except ε α) := fun a b =>
  match a, b with
  | .error e1, .error e2 =>
    if h : e1 = e2 then isTrue (by rw [h])
    else isFalse (fun hc => by cases hc; exact h rfl)
  | .error _, .ok _ => isFalse (fun hc => Except.noConfusion hc)
  | .ok _, .error _ => isFalse (fun hc => Except.noConfusion hc)
  | .ok a1, .ok a2 =>
    if h : a1 = a2 then isTrue (by rw [h])
    else isFalse (fun hc => by cases hc; exact h rfl)

/-- The frequent itemsets of size `k` over the item universe `U` (the
specification-side description of one level of the miner). -/
def freqSets (db : List (Finset ℕ)) (U : Finset ℕ) (ms : ℚ) (k : ℕ) :
    Finset (Finset ℕ) :=
  (Finset.powersetCard k U).filter (fun S => ms ≤ supportQ db S)

/-- A small frequent-itemset table: items 0 and 1 with supports 1, 1/2 and
the pair with support 1/2 (the miner output for transactions
`[{0,1}, {0}]` at min_support 1/2). -/
def w1Fi : List (Finset ℕ × ℚ) :=
  [({0}, 1), ({1}, mkRat 1 2), ({0, 1}, mkRat 1 2)]

/-- The first rule derived from `w1Fi`: 1 -> 0, confidence 1, conviction
infinite. -/
def w1Rule1 : Rule :=
  ⟨{1}, {0}, mkRat 1 2, 1, 1, 0, Qinf.inf⟩

/-- The second rule derived from `w1Fi`: 0 -> 1, confidence 1/2. -/
def w1Rule2 : Rule :=
  ⟨{0}, {1}, mkRat 1 2, mkRat 1 2, 1, 0, Qinf.fin 1⟩

/-- Counterexample incidence matrix for the rule-ordering claim:
transactions `{0,1,2}`, `{2,3}`, `{0,1}` over items 0..3. -/
def c4db : List (Finset ℕ) := [{0, 1, 2}, {2, 3}, {0, 1}]

/-- Frequent itemsets of `c4db` at min_support 1/3, as returned by the
miner. -/
def c4fi : List (Finset ℕ × ℚ) :=
  ((mine_frequent_itemsets c4db [0, 1, 2, 3] "apriori" (mkRat 1 3)).toOption).getD []

/-- Rules derived from `c4fi` with metric support and threshold 0, as
returned by the deriver. -/
def c4rules : List Rule :=
  ((derive_rules c4fi "support" 0).toOption).getD []

instance : IsTotal (Finset ℕ × ℚ) fiSuppGe :=
  ⟨fun p q => le_total q.2 p.2⟩

instance : IsTrans (Finset ℕ × ℚ) fiSuppGe :=
  ⟨fun _ _ _ h1 h2 => le_trans h2 h1⟩

instance : IsTotal Rule ruleGe := by
  constructor
  intro a b
  unfold ruleGe
  rcases lt_trichotomy b.lift a.lift with h | h | h
  · exact Or.inl (Or.inl h)
  · rcases lt_trichotomy b.confidence a.confidence with hc | hc | hc
    · exact Or.inl (Or.inr ⟨h.symm, Or.inl hc⟩)
    · rcases le_total b.support a.support with hs | hs
      · exact Or.inl (Or.inr ⟨h.symm, Or.inr ⟨hc.symm, hs⟩⟩)
      · exact Or.inr (Or.inr ⟨h, Or.inr ⟨hc, hs⟩⟩)
    · exact Or.inr (Or.inr ⟨h, Or.inl hc⟩)
  · exact Or.inr (Or.inl h)

instance : IsTrans Rule ruleGe := by
  constructor
  intro a b c h1 h2
  unfold ruleGe at h1 h2 ⊢
  rcases h1 with h1 | ⟨h1e, h1r⟩
  · rcases h2 with h2 | ⟨h2e, _⟩
    · exact Or.inl (lt_trans h2 h1)
    · exact Or.inl (h2e ▸ h1)
  · rcases h2 with h2 | ⟨h2e, h2r⟩
    · exact Or.inl (h1e.symm ▸ h2)
    · refine Or.inr ⟨h1e.trans h2e, ?_⟩
      rcases h1r with h1c | ⟨h1ce, h1s⟩
      · rcases h2r with h2c | ⟨h2ce, _⟩
        · exact Or.inl (lt_trans h2c h1c)
        · exact Or.inl (h2ce ▸ h1c)
      · rcases h2r with h2c | ⟨h2ce, h2s⟩
        · exact Or.inl (h1ce.symm ▸ h2c)
        · exact Or.inr ⟨h1ce.trans h2ce, le_trans h2s h1s⟩

theorem ratMul_eq (a b : ℚ) : ratMul a b = a * b := by
  unfold ratMul
  rw [Rat.mkRat_eq_div]
  push_cast
  rw [← div_mul_div_comm, Rat.num_div_den, Rat.num_div_den]

theorem ratSub_eq (a b : ℚ) : ratSub a b = a - b := by
  have had : ((a.den : ℚ)) ≠ 0 := by exact_mod_cast a.den_nz
  have hbd : ((b.den : ℚ)) ≠ 0 := by exact_mod_cast b.den_nz
  unfold ratSub
  rw [Rat.mkRat_eq_div]
  push_cast
  conv_rhs => rw [← Rat.num_div_den a, ← Rat.num_div_den b]
  rw [div_sub_div _ _ had hbd]
  ring_nf

theorem ratDiv_eq (a b : ℚ) : ratDiv a b = a / b := by
  unfold ratDiv
  rw [Rat.divInt_eq_div]
  push_cast
  conv_rhs => rw [← Rat.num_div_den a, ← Rat.num_div_den b]
  rw [div_div_eq_mul_div, div_mul_eq_mul_div, div_div]

theorem suppVal_eq (n c : ℕ) : suppVal n c = (c : ℚ) / (n : ℚ) := by
  unfold suppVal
  rw [Rat.mkRat_eq_div]
  push_cast
  rfl

theorem supportQ_eq (db : List (Finset ℕ)) (S : Finset ℕ) :
    supportQ db S = (cnt db S : ℚ) / (db.length : ℚ) := by
  unfold supportQ
  exact suppVal_eq _ _

theorem aggMax_eq_zero_iff (l : List ℕ) : aggMax l = 0 ↔ ∀ x ∈ l, x = 0 := by
  induction l with
  | nil => simp [aggMax]
  | cons x xs ih =>
    have hstep : aggMax (x :: xs) = max x (aggMax xs) := rfl
    rw [hstep, Nat.max_eq_zero_iff, ih]
    simp

theorem qtyInd_ne_zero (r : Record) : qtyInd r ≠ 0 ↔ 0 < r.quantity := by
  unfold qtyInd
  split <;> simp_all

/-- C6: the matrix returned by `load_and_prepare` has one row per distinct
order id and one column per distinct item, and an entry is true exactly when
some record with that order and item has positive quantity. -/
theorem load_and_prepare_spec (records : List Record) :
    (load_and_prepare records).orders.Nodup ∧
    (∀ o : ℕ, o ∈ (load_and_prepare records).orders ↔
      ∃ r ∈ records, r.order_id = o) ∧
    (load_and_prepare records).items.Nodup ∧
    (∀ i : ℕ, i ∈ (load_and_prepare records).items ↔
      ∃ r ∈ records, r.item = i) ∧
    (∀ o i : ℕ, (load_and_prepare records).entry o i = true ↔
      ∃ r ∈ records, r.order_id = o ∧ r.item = i ∧ 0 < r.quantity) := by
  refine ⟨?_, ?_, ?_, ?_, ?_⟩
  · exact (List.perm_insertionSort _ _).nodup_iff.mpr (List.nodup_dedup _)
  · intro o
    simp [load_and_prepare, (List.perm_insertionSort _ _).mem_iff, List.mem_dedup]
  · exact (List.perm_insertionSort _ _).nodup_iff.mpr (List.nodup_dedup _)
  · intro i
    simp [load_and_prepare, (List.perm_insertionSort _ _).mem_iff, List.mem_dedup]
  · intro o i
    show decide _ = true ↔ _
    rw [decide_eq_true_iff, Ne, aggMax_eq_zero_iff]
    push_neg
    constructor
    · rintro ⟨x, hx, hxne⟩
      obtain ⟨r, hr, hrx⟩ := List.mem_map.mp hx
      obtain ⟨hrrec, hcond⟩ := List.mem_filter.mp hr
      obtain ⟨h1, h2⟩ := of_decide_eq_true hcond
      exact ⟨r, hrrec, h1, h2, (qtyInd_ne_zero r).mp (hrx ▸ hxne)⟩
    · rintro ⟨r, hrrec, h1, h2, h3⟩
      refine ⟨qtyInd r, List.mem_map.mpr ⟨r, List.mem_filter.mpr ⟨hrrec, ?_⟩, rfl⟩, ?_⟩
      · exact decide_eq_true ⟨h1, h2⟩
      · exact (qtyInd_ne_zero r).mpr h3

/-- C10: an order id occurring only with non-positive quantities still yields
a row (all of whose entries are false) that counts toward the transaction
total, and an item occurring only with non-positive quantities still yields
an all-false column. -/
theorem degenerate_rows_kept (records : List Record) (o j : ℕ)
    (ho : ∃ r ∈ records, r.order_id = o)
    (hoq : ∀ r ∈ records, r.order_id = o → r.quantity ≤ 0)
    (hj : ∃ r ∈ records, r.item = j)
    (hjq : ∀ r ∈ records, r.item = j → r.quantity ≤ 0) :
    o ∈ (load_and_prepare records).orders ∧
    (∀ i : ℕ, (load_and_prepare records).entry o i = false) ∧
    j ∈ (load_and_prepare records).items ∧
    (∀ o2 : ℕ, (load_and_prepare records).entry o2 j = false) ∧
    nTransactions (load_and_prepare records) = (load_and_prepare records).orders.length := by
  obtain ⟨hnodupO, hmemO, hnodupI, hmemI, hentry⟩ := load_and_prepare_spec records
  refine ⟨(hmemO o).mpr ho, ?_, (hmemI j).mpr hj, ?_, ?_⟩
  · intro i
    by_contra hne
    have : (load_and_prepare records).entry o i = true := by
      cases h : (load_and_prepare records).entry o i
      · exact absurd h hne
      · rfl
    obtain ⟨r, hr, h1, _, h3⟩ := (hentry o i).mp this
    exact absurd (hoq r hr h1) (not_le.mpr h3)
  · intro o2
    by_contra hne
    have : (load_and_prepare records).entry o2 j = true := by
      cases h : (load_and_prepare records).entry o2 j
      · exact absurd h hne
      · rfl
    obtain ⟨r, hr, _, h2, h3⟩ := (hentry o2 j).mp this
    exact absurd (hjq r hr h2) (not_le.mpr h3)
  · simp [nTransactions, basketRows]

/-- Witness for `degenerate_rows_kept` at a concrete table: order 1 appears
only with quantity -2, item 5 appears only with quantity -2. -/
theorem degenerate_rows_kept_witness :
    1 ∈ (load_and_prepare [⟨1, 5, -2⟩, ⟨2, 7, 3⟩]).orders ∧
    (load_and_prepare [⟨1, 5, -2⟩, ⟨2, 7, 3⟩]).entry 1 5 = false ∧
    (load_and_prepare [⟨1, 5, -2⟩, ⟨2, 7, 3⟩]).entry 1 7 = false ∧
    5 ∈ (load_and_prepare [⟨1, 5, -2⟩, ⟨2, 7, 3⟩]).items ∧
    (load_and_prepare [⟨1, 5, -2⟩, ⟨2, 7, 3⟩]).entry 2 5 = false ∧
    nTransactions (load_and_prepare [⟨1, 5, -2⟩, ⟨2, 7, 3⟩]) =
      (load_and_prepare [⟨1, 5, -2⟩, ⟨2, 7, 3⟩]).orders.length := by
  have h := degenerate_rows_kept [⟨1, 5, -2⟩, ⟨2, 7, 3⟩] 1 5
    (by refine ⟨⟨1, 5, -2⟩, ?_, rfl⟩; simp)
    (by intro r hr hro; fin_cases hr <;> simp_all)
    (by refine ⟨⟨1, 5, -2⟩, ?_, rfl⟩; simp)
    (by intro r hr hrj; fin_cases hr <;> simp_all)
  exact ⟨h.1, h.2.1 5, h.2.1 7, h.2.2.1, h.2.2.2.1 2, h.2.2.2.2⟩

/-- C8: for a bipartition of a frequent itemset `p.1` into antecedent `A`
and consequent `p.1 \ A`, the lift computed by the rule deriver equals the
lift of the swapped rule. -/
theorem lift_symmetric (fi : List (Finset ℕ × ℚ)) (p : Finset ℕ × ℚ) (A : Finset ℕ)
    (hA : A ⊆ p.1) (hne : A.Nonempty) (hprop : A ≠ p.1) :
    (ruleOf fi p A).lift = (ruleOf fi p (p.1 \ A)).lift := by
  simp only [ruleOf]
  rw [Finset.sdiff_sdiff_eq_self hA]
  simp only [liftVal, ratDiv_eq]
  rw [div_right_comm]

/-- Witness for `lift_symmetric`: the rule Laptop -> Mouse against
Mouse -> Laptop in the scenario table. -/
theorem lift_symmetric_witness :
    (ruleOf [({0}, 1), ({1}, mkRat 1 2), ({0, 1}, mkRat 1 2)]
        ({0, 1}, mkRat 1 2) {0}).lift =
      (ruleOf [({0}, 1), ({1}, mkRat 1 2), ({0, 1}, mkRat 1 2)]
        ({0, 1}, mkRat 1 2) (({0, 1} : Finset ℕ) \ {0})).lift :=
  lift_symmetric _ _ _ (by decide) (by decide) (by decide)

/-- C9: running the miner followed by the rule deriver twice on the same
incidence matrix and configuration yields identical ordered output. -/
theorem run_deterministic (db db2 : List (Finset ℕ)) (items items2 : List ℕ)
    (algo algo2 : String) (ms ms2 : ℚ) (metric metric2 : String) (thr thr2 : ℚ)
    (h1 : db = db2) (h2 : items = items2) (h3 : algo = algo2) (h4 : ms = ms2)
    (h5 : metric = metric2) (h6 : thr = thr2) :
    run_analysis db items algo ms metric thr =
      run_analysis db2 items2 algo2 ms2 metric2 thr2 := by
  rw [h1, h2, h3, h4, h5, h6]

/-- Witness for `run_deterministic` at a concrete configuration. -/
theorem run_deterministic_witness :
    run_analysis [{0, 1}, {0}] [0, 1] "apriori" (mkRat 1 2) "lift" 1 =
      run_analysis [{0, 1}, {0}] [0, 1] "apriori" (mkRat 1 2) "lift" 1 :=
  run_deterministic _ _ _ _ _ _ _ _ _ _ _ _ rfl rfl rfl rfl rfl rfl

/-- C3: for min_support outside `(0,1]` or a degenerate incidence matrix,
the miner fails with an invalid-argument error naming the offending
parameter, and produces no partial output. -/
theorem eager_validation (db : List (Finset ℕ)) (items : List ℕ) (algo : String)
    (ms : ℚ) (halgo : algo = "apriori" ∨ algo = "fpgrowth")
    (hbad : ¬ (0 < ms ∧ ms ≤ 1) ∨ db = [] ∨ items = []) :
    mine_frequent_itemsets db items algo ms =
      .error
        (if ¬ (0 < ms ∧ ms ≤ 1) then
          "min_support must be a positive number within the interval (0, 1]"
        else if db.length = 0 then "the incidence model has zero transactions"
        else "the incidence model has zero items") := by
  have hleft : ∀ e : Except String (List (Finset ℕ × ℚ)),
      (mlx_apriori db items ms = e ∧ mlx_fpgrowth db items ms = e) →
        ∀ s, e = .error s → mine_frequent_itemsets db items algo ms = .error s := by
    intro e ⟨ha, hf⟩ s hs
    rcases halgo with h | h <;> subst h <;>
      simp [mine_frequent_itemsets, ha, hf, hs, Except.map]
  by_cases hms : ¬ (0 < ms ∧ ms ≤ 1)
  · rw [if_pos hms]
    refine hleft _ ⟨?_, ?_⟩ _ rfl <;> simp [mlx_apriori, mlx_fpgrowth, hms]
  · rw [if_neg hms]
    have hdeg : db = [] ∨ items = [] := by tauto
    by_cases hdb : db.length = 0
    · rw [if_pos hdb]
      refine hleft _ ⟨?_, ?_⟩ _ rfl <;> simp [mlx_apriori, mlx_fpgrowth, hms, hdb]
    · have hit : items = [] := by
        rcases hdeg with h | h
        · exact absurd (by simp [h]) hdb
        · exact h
      rw [if_neg hdb]
      refine hleft _ ⟨?_, ?_⟩ _ rfl <;>
        simp [mlx_apriori, mlx_fpgrowth, hms, hdb, hit]

/-- Witness for `eager_validation`: min_support 2 is rejected before any
mining on a non-degenerate matrix. -/
theorem eager_validation_witness :
    mine_frequent_itemsets [({0} : Finset ℕ)] [0] "apriori" 2 =
      .error "min_support must be a positive number within the interval (0, 1]" := by
  have h := eager_validation [({0} : Finset ℕ)] [0] "apriori" 2 (Or.inl rfl)
    (Or.inl (by decide))
  rwa [if_pos (show ¬ ((0 : ℚ) < 2 ∧ (2 : ℚ) ≤ 1) by decide)] at h

/-- If confidence is exactly 1, the rule record carries the explicit
infinity sentinel as its conviction. -/
theorem ruleOf_conviction_inf (fi : List (Finset ℕ × ℚ)) (p : Finset ℕ × ℚ)
    (A : Finset ℕ) (h : (ruleOf fi p A).confidence = 1) :
    (ruleOf fi p A).conviction = Qinf.inf := by
  dsimp only [ruleOf] at h ⊢
  rw [if_pos h]

/-- Every rule in the derived output comes from `ruleOf` on some tabulated
itemset and some antecedent. -/
theorem mem_mkRules (fi : List (Finset ℕ × ℚ)) (metric : String) (thr : ℚ)
    (r : Rule) (hr : r ∈ mkRules fi metric thr) :
    ∃ p A, p ∈ fi ∧ r = ruleOf fi p A := by
  obtain ⟨p, hp, hin⟩ := List.mem_flatMap.mp hr
  split at hin
  · simp at hin
  · obtain ⟨A, _, hsome⟩ := List.mem_filterMap.mp hin
    split at hsome
    · cases hsome
    · split at hsome
      · injection hsome with hsome
        exact ⟨p, A, hp, hsome.symm⟩
      · cases hsome

/-- C7: in the rule table returned by `derive_rules`, a rule whose
confidence is exactly 1 carries the infinity sentinel as conviction
(derivation is total, no division-by-zero failure), and no derived rule is
dropped by the final sort. -/
theorem conviction_sentinel (fi : List (Finset ℕ × ℚ)) (metric : String) (thr : ℚ)
    (out : List Rule) (hok : derive_rules fi metric thr = .ok out) :
    (∀ r ∈ out, r.confidence = 1 → r.conviction = Qinf.inf) ∧
    (∀ r ∈ mkRules fi metric thr, r ∈ out) := by
  unfold derive_rules at hok
  split at hok
  · injection hok with hok
    constructor
    · intro r hr hconf
      have hr2 : r ∈ mkRules fi metric thr :=
        ((List.perm_insertionSort ruleGe _).mem_iff).mp (hok ▸ hr)
      obtain ⟨p, A, _, hrA⟩ := mem_mkRules fi metric thr r hr2
      subst hrA
      exact ruleOf_conviction_inf fi p A hconf
    · intro r hr
      exact hok ▸ ((List.perm_insertionSort ruleGe _).mem_iff).mpr hr
  · exact Except.noConfusion hok

/-- Witness for `conviction_sentinel`: the rule 1 -> 0 of the small table
has confidence 1 and the infinite conviction sentinel. -/
theorem conviction_sentinel_witness : w1Rule1.conviction = Qinf.inf :=
  (conviction_sentinel w1Fi "support" 0 [w1Rule1, w1Rule2] (by decide)).1
    w1Rule1 (by decide) (by decide)

/-- C5 (amended): the frequent-itemset table returned by
`mine_frequent_itemsets` is sorted by descending support (the claimed
canonical tie-break does not hold, see the counterexample). -/
theorem mine_sorted_by_support (db : List (Finset ℕ)) (items : List ℕ)
    (algo : String) (ms : ℚ) (l : List (Finset ℕ × ℚ))
    (h : mine_frequent_itemsets db items algo ms = .ok l) :
    l.Sorted fiSuppGe := by
  unfold mine_frequent_itemsets at h
  split_ifs at h
  · cases hm : mlx_apriori db items ms with
    | error e => rw [hm] at h; exact Except.noConfusion h
    | ok v =>
      rw [hm] at h
      injection h with h
      exact h ▸ List.sorted_insertionSort fiSuppGe _
  · cases hm : mlx_fpgrowth db items ms with
    | error e => rw [hm] at h; exact Except.noConfusion h
    | ok v =>
      rw [hm] at h
      injection h with h
      exact h ▸ List.sorted_insertionSort fiSuppGe _

/-- Witness for `mine_sorted_by_support` on a concrete matrix. -/
theorem mine_sorted_by_support_witness : w1Fi.Sorted fiSuppGe :=
  mine_sorted_by_support [{0, 1}, {0}] [0, 1] "apriori" (mkRat 1 2) w1Fi (by decide)

/-- C5 counterexample: on transactions `{0,1}`, `{0}` at min_support 1/2 the
itemsets `{1}` and `{0,1}` are tied at support 1/2; the canonical
sorted-sequence order puts `{0,1}` (canonically `[0,1]`) before `{1}`, but
the miner emits `{1}` first, because the pandas tie-break compares Python
frozensets (a strict subset sorts before its superset, incomparable sets
keep their previous order), not canonical sequences.  So the claimed
ordering predicate fails on the returned table. -/
theorem fi_ordering_counterexample :
    mkRat 1 2 = (1 : ℚ) / 2 ∧
    mine_frequent_itemsets [{0, 1}, {0}] [0, 1] "apriori" (mkRat 1 2) =
      .ok [({0}, 1), ({1}, mkRat 1 2), ({0, 1}, mkRat 1 2)] ∧
    seqLt (canonSeq {0, 1}) (canonSeq {1}) = true ∧
    ¬ fiClaimOrdered [({0}, 1), ({1}, mkRat 1 2), ({0, 1}, mkRat 1 2)] := by
  refine ⟨?_, by decide, by decide, by decide⟩
  norm_num [Rat.mkRat_eq_div]

/-- C4 (amended): the rule table returned by `derive_rules` is sorted by
descending lift, then confidence, then support (the claimed canonical
tie-break does not hold, see the counterexample). -/
theorem rules_sorted_by_metrics (fi : List (Finset ℕ × ℚ)) (metric : String)
    (thr : ℚ) (out : List Rule) (h : derive_rules fi metric thr = .ok out) :
    out.Sorted ruleGe := by
  unfold derive_rules at h
  split at h
  · injection h with h
    exact h ▸ List.sorted_insertionSort ruleGe _
  · exact Except.noConfusion h

/-- Witness for `rules_sorted_by_metrics` on a concrete table. -/
theorem rules_sorted_by_metrics_witness : ([w1Rule1, w1Rule2]).Sorted ruleGe :=
  rules_sorted_by_metrics w1Fi "support" 0 [w1Rule1, w1Rule2] (by decide)

/-- C4 counterexample: on `c4db` the rules at positions 5 and 6 of the
derived table are `{2} -> {3}` and `{0} -> {1,2}`; they are tied on lift,
confidence and support, and the canonical string representation of
`{0} -> {1,2}` precedes that of `{2} -> {3}`, yet the table lists
`{2} -> {3}` first (ties keep derivation order; no canonical tie-break is
applied).  So the claimed ordering predicate fails on the returned table. -/
theorem rules_ordering_counterexample :
    c4rules.length = 14 ∧
    (c4rules.get? 5).map (fun r => (canonSeq r.antecedents, canonSeq r.consequents)) =
      some ([2], [3]) ∧
    (c4rules.get? 6).map (fun r => (canonSeq r.antecedents, canonSeq r.consequents)) =
      some ([0], [1, 2]) ∧
    (c4rules.get? 5).map (fun r => (r.lift, r.confidence, r.support)) =
      (c4rules.get? 6).map (fun r => (r.lift, r.confidence, r.support)) ∧
    seqLt [0] [2] = true ∧
    ¬ rulesClaimOrdered c4rules :=
  ⟨by decide, by decide, by decide, by decide, by decide, by decide⟩

theorem cnt_anti (db : List (Finset ℕ)) {S T : Finset ℕ} (h : S ⊆ T) :
    cnt db T ≤ cnt db S := by
  unfold cnt
  apply List.countP_mono_left
  intro t _ ht
  exact decide_eq_true (le_trans h (of_decide_eq_true ht))

theorem suppVal_mono (n : ℕ) {c1 c2 : ℕ} (h : c1 ≤ c2) :
    suppVal n c1 ≤ suppVal n c2 := by
  rw [suppVal_eq, suppVal_eq]
  rcases Nat.eq_zero_or_pos n with h0 | hpos
  · simp [h0]
  · have hn : (0 : ℚ) < n := by exact_mod_cast hpos
    exact (div_le_div_iff_of_pos_right hn).mpr (by exact_mod_cast h)

theorem supportQ_anti (db : List (Finset ℕ)) {S T : Finset ℕ} (h : S ⊆ T) :
    supportQ db T ≤ supportQ db S :=
  suppVal_mono db.length (cnt_anti db h)

theorem apriori_seed (db : List (Finset ℕ)) (items : List ℕ) (ms : ℚ) :
    ((items.filter (fun i => decide (ms ≤ supportQ db {i}))).map
        (fun i => ({i} : Finset ℕ))).toFinset = freqSets db items.toFinset ms 1 := by
  ext S
  simp only [List.mem_toFinset, List.mem_map, List.mem_filter, freqSets,
    Finset.mem_filter, Finset.mem_powersetCard, decide_eq_true_eq]
  constructor
  · rintro ⟨i, ⟨hi, hsup⟩, rfl⟩
    exact ⟨⟨by simpa using hi, Finset.card_singleton i⟩, hsup⟩
  · rintro ⟨⟨hsub, hcard⟩, hsup⟩
    obtain ⟨a, rfl⟩ := Finset.card_eq_one.mp hcard
    exact ⟨a, ⟨by simpa using hsub, hsup⟩, rfl⟩

theorem aprioriStep_spec (db : List (Finset ℕ)) (U : Finset ℕ) (ms : ℚ) (k : ℕ)
    (hk : 1 ≤ k) (L : List (Finset ℕ)) (hL : L.toFinset = freqSets db U ms k) :
    (aprioriStep db ms L k).toFinset = freqSets db U ms (k + 1) := by
  have hmemL : ∀ a : Finset ℕ, a ∈ L ↔ a ∈ freqSets db U ms k := by
    intro a
    rw [← List.mem_toFinset, hL]
  ext c
  rw [List.mem_toFinset]
  constructor
  · intro hc
    obtain ⟨hc1, hsupd⟩ := List.mem_filter.mp hc
    have hsup := of_decide_eq_true hsupd
    obtain ⟨hc2, _⟩ := List.mem_filter.mp hc1
    unfold aprioriJoin at hc2
    rw [List.mem_dedup] at hc2
    obtain ⟨hc3, hcardd⟩ := List.mem_filter.mp hc2
    have hcard := of_decide_eq_true hcardd
    obtain ⟨a, ha, hb⟩ := List.mem_flatMap.mp hc3
    obtain ⟨b, hbL, hab⟩ := List.mem_map.mp hb
    have haU : a ⊆ U :=
      (Finset.mem_powersetCard.mp (Finset.mem_filter.mp ((hmemL a).mp ha)).1).1
    have hbU : b ⊆ U :=
      (Finset.mem_powersetCard.mp (Finset.mem_filter.mp ((hmemL b).mp hbL)).1).1
    have hcU : c ⊆ U := by
      rw [← hab]
      exact Finset.union_subset haU hbU
    exact Finset.mem_filter.mpr ⟨Finset.mem_powersetCard.mpr ⟨hcU, hcard⟩, hsup⟩
  · intro hc
    obtain ⟨hmem, hsup⟩ := Finset.mem_filter.mp hc
    obtain ⟨hsubU, hcard⟩ := Finset.mem_powersetCard.mp hmem
    have hallk : ∀ s ∈ Finset.powersetCard k c, s ∈ L := by
      intro s hs
      obtain ⟨hsub, hscard⟩ := Finset.mem_powersetCard.mp hs
      refine (hmemL s).mpr (Finset.mem_filter.mpr
        ⟨Finset.mem_powersetCard.mpr ⟨hsub.trans hsubU, hscard⟩,
          le_trans hsup (supportQ_anti db hsub)⟩)
    have hc2 : 1 < c.card := by omega
    obtain ⟨x, hx, y, hy, hxy⟩ := Finset.one_lt_card.mp hc2
    have hex : (c.erase x) ∈ L := by
      refine hallk _ (Finset.mem_powersetCard.mpr ⟨Finset.erase_subset _ _, ?_⟩)
      rw [Finset.card_erase_of_mem hx, hcard]
      omega
    have hey : (c.erase y) ∈ L := by
      refine hallk _ (Finset.mem_powersetCard.mpr ⟨Finset.erase_subset _ _, ?_⟩)
      rw [Finset.card_erase_of_mem hy, hcard]
      omega
    have hunion : c.erase x ∪ c.erase y = c := by
      ext z
      simp only [Finset.mem_union, Finset.mem_erase]
      constructor
      · rintro (⟨_, hz⟩ | ⟨_, hz⟩) <;> exact hz
      · intro hz
        by_cases hzx : z = x
        · exact Or.inr ⟨by rw [hzx]; exact hxy, hz⟩
        · exact Or.inl ⟨hzx, hz⟩
    apply List.mem_filter.mpr
    refine ⟨?_, decide_eq_true hsup⟩
    apply List.mem_filter.mpr
    refine ⟨?_, decide_eq_true hallk⟩
    unfold aprioriJoin
    rw [List.mem_dedup]
    apply List.mem_filter.mpr
    refine ⟨List.mem_flatMap.mpr ⟨_, hex, List.mem_map.mpr ⟨_, hey, hunion⟩⟩,
      decide_eq_true hcard⟩

theorem freqSets_empty_succ (db : List (Finset ℕ)) (U : Finset ℕ) (ms : ℚ) (k : ℕ)
    (h : freqSets db U ms k = ∅) : freqSets db U ms (k + 1) = ∅ := by
  by_contra hne
  obtain ⟨S, hS⟩ := Finset.nonempty_iff_ne_empty.mpr hne
  obtain ⟨hmem, hsup⟩ := Finset.mem_filter.mp hS
  obtain ⟨hsub, hcard⟩ := Finset.mem_powersetCard.mp hmem
  obtain ⟨t, hts, htcard⟩ := Finset.exists_subset_card_eq (s := S) (n := k) (by omega)
  have htmem : t ∈ freqSets db U ms k :=
    Finset.mem_filter.mpr
      ⟨Finset.mem_powersetCard.mpr ⟨hts.trans hsub, htcard⟩,
        le_trans hsup (supportQ_anti db hts)⟩
  rw [h] at htmem
  exact absurd htmem (Finset.not_mem_empty t)

theorem aprioriFrom_spec (db : List (Finset ℕ)) (U : Finset ℕ) (ms : ℚ) :
    ∀ (fuel k : ℕ) (L : List (Finset ℕ)), 1 ≤ k →
      L.toFinset = freqSets db U ms k →
      (aprioriFrom db ms fuel L k).toFinset =
        (Finset.range fuel).biUnion (fun j => freqSets db U ms (k + j)) := by
  intro fuel
  induction fuel with
  | zero =>
    intro k L _ _
    simp [aprioriFrom]
  | succ n ih =>
    intro k L hk hL
    by_cases hLnil : L = []
    · have hstep : aprioriFrom db ms (n + 1) L k = [] := by
        simp [aprioriFrom, hLnil]
      have hk0 : freqSets db U ms k = ∅ := by
        rw [← hL, hLnil]
        simp
      have hall : ∀ j : ℕ, freqSets db U ms (k + j) = ∅ := by
        intro j
        induction j with
        | zero => simpa using hk0
        | succ m ihm =>
          have : k + (m + 1) = (k + m) + 1 := by omega
          rw [this]
          exact freqSets_empty_succ db U ms (k + m) ihm
      rw [hstep]
      simp only [hall]
      ext x
      simp
    · have hstep : aprioriFrom db ms (n + 1) L k =
          L ++ aprioriFrom db ms n (aprioriStep db ms L k) (k + 1) := by
        simp [aprioriFrom, hLnil]
      rw [hstep, List.toFinset_append, hL,
        ih (k + 1) _ (by omega) (aprioriStep_spec db U ms k hk L hL)]
      ext S
      simp only [Finset.mem_union, Finset.mem_biUnion, Finset.mem_range]
      constructor
      · rintro (h | ⟨j, hj, h⟩)
        · exact ⟨0, by omega, by simpa using h⟩
        · refine ⟨j + 1, by omega, ?_⟩
          have : k + (j + 1) = k + 1 + j := by omega
          rw [this]
          exact h
      · rintro ⟨j, hj, h⟩
        cases j with
        | zero => exact Or.inl (by simpa using h)
        | succ m =>
          refine Or.inr ⟨m, by omega, ?_⟩
          have : k + 1 + m = k + (m + 1) := by omega
          rw [this]
          exact h

theorem aprioriSets_spec (db : List (Finset ℕ)) (items : List ℕ) (ms : ℚ) :
    (aprioriSets db items ms).toFinset =
      (items.toFinset.powerset.erase ∅).filter (fun S => ms ≤ supportQ db S) := by
  unfold aprioriSets
  rw [aprioriFrom_spec db items.toFinset ms items.length 1 _ le_rfl
    (apriori_seed db items ms)]
  ext S
  simp only [Finset.mem_biUnion, Finset.mem_range, freqSets, Finset.mem_filter,
    Finset.mem_powersetCard, Finset.mem_erase, Finset.mem_powerset]
  constructor
  · rintro ⟨j, _, ⟨hsub, hcard⟩, hsup⟩
    refine ⟨⟨?_, hsub⟩, hsup⟩
    intro h0
    rw [h0] at hcard
    simp at hcard
    omega
  · rintro ⟨⟨hne, hsub⟩, hsup⟩
    have h1 : 1 ≤ S.card := Finset.card_pos.mpr (Finset.nonempty_iff_ne_empty.mpr hne)
    have h2 : S.card ≤ items.length :=
      le_trans (Finset.card_le_card hsub) items.toFinset_card_le
    exact ⟨S.card - 1, by omega, ⟨hsub, by omega⟩, hsup⟩

theorem mem_minedPairs (n : ℕ) (ms : ℚ) (db : List (Finset ℕ)) (U : Finset ℕ)
    (S : Finset ℕ) (q : ℚ) :
    ((S, q) ∈ ((U.powerset.erase ∅).filter
        (fun T => ms ≤ suppVal n (cnt db T))).image
        (fun T => (T, suppVal n (cnt db T)))) ↔
      (S ≠ ∅ ∧ S ⊆ U ∧ ms ≤ suppVal n (cnt db S) ∧ q = suppVal n (cnt db S)) := by
  simp only [Finset.mem_image, Finset.mem_filter, Finset.mem_erase, Finset.mem_powerset]
  constructor
  · rintro ⟨T, ⟨⟨hne, hsub⟩, hsup⟩, heq⟩
    obtain ⟨h1, h2⟩ := Prod.mk.injEq .. ▸ heq
    subst h1
    exact ⟨hne, hsub, hsup, h2.symm⟩
  · rintro ⟨hne, hsub, hsup, rfl⟩
    exact ⟨S, ⟨⟨hne, hsub⟩, hsup⟩, rfl⟩

theorem cnt_filter_insert (db : List (Finset ℕ)) (i : ℕ) (S : Finset ℕ) :
    cnt (db.filter (fun t => decide (i ∈ t))) S = cnt db (insert i S) := by
  unfold cnt
  rw [List.countP_filter]
  apply List.countP_congr
  intro t _
  by_cases h1 : S ⊆ t <;> by_cases h2 : i ∈ t <;>
    simp [h1, h2, Finset.insert_subset_iff]

theorem condMine_spec (ms : ℚ) (n : ℕ) :
    ∀ (its : List ℕ) (db : List (Finset ℕ)),
      (condMine n ms its db).toFinset =
        ((its.toFinset.powerset.erase ∅).filter
            (fun T => ms ≤ suppVal n (cnt db T))).image
          (fun T => (T, suppVal n (cnt db T))) := by
  intro its
  induction its with
  | nil =>
    intro db
    ext ⟨S, q⟩
    rw [mem_minedPairs]
    simp [condMine, Finset.subset_empty]
    tauto
  | cons i rest ih =>
    intro db
    ext ⟨S, q⟩
    rw [mem_minedPairs, List.toFinset_cons, List.mem_toFinset]
    show _ ∈ (if _ then _ else _) ++ _ ↔ _
    rw [List.mem_append]
    constructor
    · rintro (hmem | hmem)
      · by_cases hfi : ms ≤ suppVal n (cnt db {i})
        · rw [if_pos hfi] at hmem
          rcases List.mem_cons.mp hmem with heq | hmem2
          · injection heq with h1 h2
            subst h1
            subst h2
            exact ⟨by simp, by simp, hfi, rfl⟩
          · obtain ⟨⟨T, w⟩, hmem3, heq⟩ := List.mem_map.mp hmem2
            injection heq with h1 h2
            have hm : (T, w) ∈
                (condMine n ms rest (db.filter (fun t => decide (i ∈ t)))).toFinset :=
              List.mem_toFinset.mpr hmem3
            rw [ih (db.filter (fun t => decide (i ∈ t))), mem_minedPairs] at hm
            obtain ⟨hne, hsub, hsup, hw⟩ := hm
            rw [cnt_filter_insert] at hsup hw
            subst h1
            subst h2
            refine ⟨by simp, Finset.insert_subset_insert i hsub, hsup, hw⟩
        · rw [if_neg hfi] at hmem
          simp at hmem
      · have hm : (S, q) ∈ (condMine n ms rest db).toFinset :=
          List.mem_toFinset.mpr hmem
        rw [ih db, mem_minedPairs] at hm
        obtain ⟨hne, hsub, hsup, hq⟩ := hm
        exact ⟨hne, hsub.trans (Finset.subset_insert i _), hsup, hq⟩
    · rintro ⟨hne, hsub, hsup, hq⟩
      by_cases hiS : i ∈ S
      · left
        have hfi : ms ≤ suppVal n (cnt db {i}) :=
          le_trans hsup (suppVal_mono n (cnt_anti db (by simpa using hiS)))
        rw [if_pos hfi]
        by_cases hSi : S = {i}
        · apply List.mem_cons.mpr
          left
          rw [hq, hSi]
        · apply List.mem_cons.mpr
          right
          apply List.mem_map.mpr
          have herase : insert i (S.erase i) = S := Finset.insert_erase hiS
          refine ⟨(S.erase i,
            suppVal n (cnt (db.filter (fun t => decide (i ∈ t))) (S.erase i))), ?_, ?_⟩
          · apply List.mem_toFinset.mp
            rw [ih (db.filter (fun t => decide (i ∈ t))), mem_minedPairs]
            have hcnt2 : cnt (db.filter (fun t => decide (i ∈ t))) (S.erase i) =
                cnt db S := by
              rw [cnt_filter_insert, herase]
            refine ⟨?_, ?_, ?_, rfl⟩
            · intro h0
              rcases (Finset.erase_eq_empty_iff S i).mp h0 with h | h
              · exact hne h
              · exact hSi h
            · intro z hz
              obtain ⟨hzi, hzS⟩ := Finset.mem_erase.mp hz
              rcases Finset.mem_insert.mp (hsub hzS) with h | h
              · exact absurd h hzi
              · exact h
            · rw [hcnt2]
              exact hsup
          · have hcnt2 : cnt (db.filter (fun t => decide (i ∈ t))) (S.erase i) =
                cnt db S := by
              rw [cnt_filter_insert, herase]
            rw [hcnt2, herase, ← hq]
      · right
        apply List.mem_toFinset.mp
        rw [ih db, mem_minedPairs]
        have hsub2 : S ⊆ rest.toFinset := by
          intro z hz
          rcases Finset.mem_insert.mp (hsub hz) with h | h
          · exact absurd (h ▸ hz) hiS
          · exact h
        exact ⟨hne, hsub2, hsup, hq⟩

theorem sortFI_toFinset (l : List (Finset ℕ × ℚ)) : (sortFI l).toFinset = l.toFinset := by
  unfold sortFI
  rw [List.toFinset_eq_of_perm _ _ (List.perm_insertionSort fiSuppGe _),
    List.toFinset_eq_of_perm _ _ (List.perm_insertionSort fsSecLe _)]

theorem attachSupp_toFinset (db : List (Finset ℕ)) (l : List (Finset ℕ)) :
    (attachSupp db l).toFinset = l.toFinset.image (fun S => (S, supportQ db S)) := by
  ext p
  simp [attachSupp, List.mem_map, Finset.mem_image]

theorem mlx_same_sets (db : List (Finset ℕ)) (items : List ℕ) (ms : ℚ) :
    (mlx_apriori db items ms).map List.toFinset =
      (mlx_fpgrowth db items ms).map List.toFinset := by
  unfold mlx_apriori mlx_fpgrowth
  by_cases h1 : ¬ (0 < ms ∧ ms ≤ 1)
  · rw [if_pos h1, if_pos h1]
  · rw [if_neg h1, if_neg h1]
    by_cases h2 : db.length = 0
    · rw [if_pos h2, if_pos h2]
    · rw [if_neg h2, if_neg h2]
      by_cases h3 : items.length = 0
      · rw [if_pos h3, if_pos h3]
      · rw [if_neg h3, if_neg h3]
        simp only [Except.map]
        congr 1
        rw [attachSupp_toFinset, aprioriSets_spec, condMine_spec ms db.length items db]
        rfl

/-- C1: for a valid configuration, the frequent-itemset collection returned
by `mine_frequent_itemsets` (either algorithm) is exactly the brute-force
enumeration of all non-empty itemsets whose support meets min_support, each
paired with its exact support. -/
theorem mine_equals_bruteforce (db : List (Finset ℕ)) (items : List ℕ)
    (algo : String) (ms : ℚ) (halgo : algo = "apriori" ∨ algo = "fpgrowth")
    (hms : 0 < ms ∧ ms ≤ 1) (hdb : db ≠ []) (hit : items ≠ [])
    (hrows : db.length ≤ 100) (hcols : items.length ≤ 10) :
    (mine_frequent_itemsets db items algo ms).map List.toFinset =
      .ok (bruteForce db items ms) := by
  have hdb0 : ¬ db.length = 0 := fun h => hdb (List.length_eq_zero.mp h)
  have hit0 : ¬ items.length = 0 := fun h => hit (List.length_eq_zero.mp h)
  have hms2 : ¬ ¬ (0 < ms ∧ ms ≤ 1) := not_not_intro hms
  rcases halgo with h | h <;> subst h
  · unfold mine_frequent_itemsets
    rw [if_pos rfl]
    unfold mlx_apriori
    rw [if_neg hms2, if_neg hdb0, if_neg hit0]
    simp only [Except.map]
    congr 1
    rw [sortFI_toFinset, attachSupp_toFinset, aprioriSets_spec]
    rfl
  · unfold mine_frequent_itemsets
    rw [if_neg (by decide : ¬ ("fpgrowth" = "apriori")), if_pos rfl]
    unfold mlx_fpgrowth
    rw [if_neg hms2, if_neg hdb0, if_neg hit0]
    simp only [Except.map]
    congr 1
    rw [sortFI_toFinset, condMine_spec ms db.length items db]
    rfl

/-- Witness for `mine_equals_bruteforce` on the two-transaction matrix. -/
theorem mine_equals_bruteforce_witness :
    (mine_frequent_itemsets [{0, 1}, {0}] [0, 1] "apriori" (mkRat 1 2)).map
        List.toFinset =
      .ok (bruteForce [{0, 1}, {0}] [0, 1] (mkRat 1 2)) :=
  mine_equals_bruteforce [{0, 1}, {0}] [0, 1] "apriori" (mkRat 1 2) (Or.inl rfl)
    (by decide) (by decide) (by decide) (by decide) (by decide)

/-- C2: the apriori and fpgrowth strategies return the same set of
(itemset, support) pairs for every matrix and threshold. -/
theorem apriori_fpgrowth_agree (db : List (Finset ℕ)) (items : List ℕ) (ms : ℚ)
    (hms : 0 < ms ∧ ms ≤ 1) :
    (mine_frequent_itemsets db items "apriori" ms).map List.toFinset =
      (mine_frequent_itemsets db items "fpgrowth" ms).map List.toFinset := by
  have h := mlx_same_sets db items ms
  unfold mine_frequent_itemsets
  rw [if_pos rfl, if_neg (by decide : ¬ ("fpgrowth" = "apriori")), if_pos rfl]
  cases ha : mlx_apriori db items ms <;> cases hf : mlx_fpgrowth db items ms <;>
    rw [ha, hf] at h <;> simp only [Except.map] at h ⊢
  · exact h
  · exact Except.noConfusion h
  · exact Except.noConfusion h
  · injection h with h
    congr 1
    rw [sortFI_toFinset, sortFI_toFinset]
    exact h

/-- Witness for `apriori_fpgrowth_agree` on the two-transaction matrix. -/
theorem apriori_fpgrowth_agree_witness :
    (mine_frequent_itemsets [{0, 1}, {0}] [0, 1] "apriori" (mkRat 1 2)).map
        List.toFinset =
      (mine_frequent_itemsets [{0, 1}, {0}] [0, 1] "fpgrowth" (mkRat 1 2)).map
        List.toFinset :=
  apriori_fpgrowth_agree [{0, 1}, {0}] [0, 1] (mkRat 1 2) (by decide)
